import Mathlib

/-
  Verification of the ChordMap core (chord parsing, prefix tree, live tracker).

  Shallow embedding of:
    - src/parser.ts        (KeybindingParser)
    - src/searchIndex.ts   (PrefixGraphBuilder, LiveChordTracker)

  JavaScript string primitives used by the source are modelled explicitly over
  List Char, matching ECMAScript semantics on the ASCII inputs the tool uses:
    - String.prototype.toLowerCase        -> jsToLower (ASCII case folding)
    - String.prototype.split("+")         -> jsSplitOnPlus ("" gives [""])
    - String.prototype.trim              -> jsTrim
    - String.prototype.split(regex ws+)   -> jsSplitWs (applied post-trim)
    - String.prototype.replace(word opt)  -> jsReplaceOptWord (word boundaries)
    - Array.prototype.sort()              -> sortStrings (code-unit ascending)
    - Array.prototype.join                -> joinPlus / joinSpace
    - Map get / set (insertion ordered)   -> mapGet / mapSet over assoc lists
-/

namespace ChordMap

/-! ## JavaScript string primitives -/

/-- ASCII lowercasing of one character, as ECMAScript toLowerCase acts on
the ASCII range (the only range the keybinding strings use). -/
def lowerChar (c : Char) : Char :=
  if 65 ≤ c.toNat ∧ c.toNat ≤ 90 then Char.ofNat (c.toNat + 32) else c

/-- Model of s.toLowerCase() on ASCII strings. -/
def jsToLower (s : String) : String :=
  String.mk (s.data.map lowerChar)

/-- ASCII whitespace recognised by the JS regex class \s (ASCII part). -/
def isJsSpace (c : Char) : Bool :=
  c = ' ' || c = '\t' || c = '\n' || c = '\r' || c = '\x0b' || c = '\x0c'

/-- Model of s.trim() on ASCII strings. -/
def jsTrim (s : String) : String :=
  String.mk (((s.data.dropWhile isJsSpace).reverse.dropWhile isJsSpace).reverse)

/-- Accumulating splitter for split("+"): cuts at every plus sign, keeping
empty segments, so "" gives [""] and "+" gives ["", ""] as in ECMAScript. -/
def splitPlusAux : List Char → List Char → List (List Char)
  | [], acc => [acc.reverse]
  | c :: rest, acc =>
    if c = '+' then acc.reverse :: splitPlusAux rest []
    else splitPlusAux rest (c :: acc)

/-- Model of s.split("+"). -/
def jsSplitOnPlus (s : String) : List String :=
  (splitPlusAux s.data []).map String.mk

/-- Maximal non-whitespace runs of a character list (used for split on a
whitespace-run regex applied to an already trimmed string). -/
def wsTokensAux : List Char → List Char → List (List Char)
  | [], acc => if acc.isEmpty then [] else [acc.reverse]
  | c :: rest, acc =>
    if isJsSpace c then
      if acc.isEmpty then wsTokensAux rest []
      else acc.reverse :: wsTokensAux rest []
    else wsTokensAux rest (c :: acc)

/-- Model of s.split(whitespace-run regex) for a trimmed string s: the empty
string gives [""] (ECMAScript split never returns an empty array), any other
trimmed string gives its whitespace-separated tokens. -/
def jsSplitWs (s : String) : List String :=
  if s = "" then [""] else (wsTokensAux s.data []).map String.mk

/-- JS Array.prototype.join("+"). -/
def joinPlus : List String → String
  | [] => ""
  | [x] => x
  | x :: rest => x ++ "+" ++ joinPlus rest

/-- JS Array.prototype.join(" "). -/
def joinSpace : List String → String
  | [] => ""
  | [x] => x
  | x :: rest => x ++ " " ++ joinSpace rest

/-- Code-unit comparison of character lists, as the default JS sort
comparator orders strings. -/
def charsLt : List Char → List Char → Bool
  | [], [] => false
  | [], _ :: _ => true
  | _ :: _, [] => false
  | a :: as, b :: bs =>
    if a.toNat < b.toNat then true
    else if b.toNat < a.toNat then false
    else charsLt as bs

/-- String comparison used by the default JS Array.prototype.sort(). -/
def jsStrLt (a b : String) : Bool := charsLt a.data b.data

/-- Insert a string into an ascending-sorted list, keeping it sorted. -/
def insSorted (x : String) : List String → List String
  | [] => [x]
  | y :: ys => if jsStrLt y x then y :: insSorted x ys else x :: y :: ys

/-- Model of [...l].sort() for strings: the ascending reordering. -/
def sortStrings (l : List String) : List String :=
  l.foldl (fun acc x => insSorted x acc) []

/-! ## Data model (src/types.ts) -/

/-- KeyChord from src/types.ts. -/
structure KeyChord where
  modifiers : List String
  key : String
  raw : String
deriving Repr, DecidableEq

/-- ParsedKeybinding from src/types.ts; the optional when clause is named
whenClause here. -/
structure ParsedKeybinding where
  key : String
  command : String
  whenClause : Option String
  disabled : Bool
  sourceEditor : String
  commandLabel : Option String
  category : Option String
  isMultiChord : Bool
  conflictsWith : Option (List String)
deriving Repr, DecidableEq

/-! ## KeybindingParser (src/parser.ts) -/

/-- The known modifier set of KeybindingParser.parseChord. -/
def modifierSet : List String := ["cmd", "ctrl", "shift", "alt", "option", "meta"]

/-- The loop body of parseChord: a part is pushed to modifiers iff it is a
known modifier and is not the last part (rest nonempty mirrors the index
test against length - 1); otherwise it overwrites the key accumulator. -/
def chordLoop : List String → List String × String → List String × String
  | [], acc => acc
  | part :: rest, (mods, key) =>
    if modifierSet.contains part && !rest.isEmpty then
      chordLoop rest (mods ++ [part], key)
    else
      chordLoop rest (mods, part)

/-- KeybindingParser.parseChord: lowercase, split on plus signs, walk the
parts with chordLoop, keep the original string in raw. -/
def parseChord (chord : String) : KeyChord :=
  let parts := jsSplitOnPlus (jsToLower chord)
  let r := chordLoop parts ([], "")
  { modifiers := r.1, key := r.2, raw := chord }

/-- KeybindingParser.parseKeySequence: trim, split on whitespace runs, parse
each token as a chord. -/
def parseKeySequence (keySequence : String) : List KeyChord :=
  let chordStrings := jsSplitWs (jsTrim keySequence)
  chordStrings.map parseChord

/-! ## PrefixGraphBuilder (src/searchIndex.ts) -/

/-- PrefixNode from src/types.ts; the children Map is an insertion-ordered
association list, as JS Map iterates in insertion order. -/
inductive PrefixNode where
  | mk (chord : String) (children : List (String × PrefixNode))
       (bindings : List ParsedKeybinding) (fullPath : List String)

/-- The chord display string of a node. -/
def PrefixNode.chord : PrefixNode → String
  | .mk c _ _ _ => c

/-- The children association list of a node. -/
def PrefixNode.children : PrefixNode → List (String × PrefixNode)
  | .mk _ ch _ _ => ch

/-- The bindings attached at a node. -/
def PrefixNode.bindings : PrefixNode → List ParsedKeybinding
  | .mk _ _ b _ => b

/-- The full raw-chord path of a node from the root. -/
def PrefixNode.fullPath : PrefixNode → List String
  | .mk _ _ _ p => p

/-- JS Map.prototype.get on the insertion-ordered association list. -/
def mapGet : List (String × PrefixNode) → String → Option PrefixNode
  | [], _ => none
  | (k0, v0) :: rest, k => if k0 = k then some v0 else mapGet rest k

/-- JS Map.prototype.set: replace in place if the key exists, otherwise
append at the end (insertion order). -/
def mapSet : List (String × PrefixNode) → String → PrefixNode → List (String × PrefixNode)
  | [], k, v => [(k, v)]
  | (k0, v0) :: rest, k, v =>
    if k0 = k then (k0, v) :: rest else (k0, v0) :: mapSet rest k v

/-- PrefixGraphBuilder.createNode. -/
def createNode (chord : String) (fullPath : List String) : PrefixNode :=
  .mk chord [] [] fullPath

/-- PrefixGraphBuilder.normalizeChordKey: parse, sort the modifiers
alphabetically, rejoin with plus signs. -/
def normalizeChordKey (chord : String) : String :=
  let parsed := parseChord chord
  let sortedModifiers := sortStrings parsed.modifiers
  if sortedModifiers.length > 0 then
    joinPlus (sortedModifiers ++ [parsed.key])
  else
    parsed.key

/-- The per-binding walk of buildPrefixTree below the root: at each remaining
raw chord string, get or create the child keyed by its normalized key while
extending the full path, and push the binding at the terminal node. The rest
= [] case is the single-chord branch of the source, which pushes directly. -/
def insertChords : PrefixNode → List String → List String → ParsedKeybinding → PrefixNode
  | .mk c ch bl p, _, [], binding => .mk c ch (bl ++ [binding]) p
  | .mk c ch bl p, fullPath, raw :: rest, binding =>
    let fullPath' := fullPath ++ [raw]
    let chordKey := normalizeChordKey raw
    let child :=
      match mapGet ch chordKey with
      | some cnode => cnode
      | none => createNode raw fullPath'
    .mk c (mapSet ch chordKey (insertChords child fullPath' rest binding)) bl p

/-- One iteration of the buildPrefixTree loop: skip falsy (empty) keys, skip
an empty chord list, otherwise get or create the root node for the first
chord and walk the remaining chords. -/
def buildStep (roots : List (String × PrefixNode)) (binding : ParsedKeybinding) :
    List (String × PrefixNode) :=
  if binding.key = "" then roots
  else
    match parseKeySequence binding.key with
    | [] => roots
    | c0 :: rest =>
      let firstChordKey := normalizeChordKey c0.raw
      let rootNode :=
        match mapGet roots firstChordKey with
        | some n => n
        | none => createNode c0.raw [c0.raw]
      mapSet roots firstChordKey
        (insertChords rootNode [c0.raw] (rest.map KeyChord.raw) binding)

/-- PrefixGraphBuilder.buildPrefixTree: fold the loop body over the binding
list starting from an empty root map. -/
def buildPrefixTree (bindings : List ParsedKeybinding) : List (String × PrefixNode) :=
  bindings.foldl buildStep []

mutual

/-- The traverse closure of flattenTree: this node's bindings, then the
children in insertion order. -/
def flattenNode : PrefixNode → List ParsedKeybinding
  | .mk _ children bindings _ => bindings ++ flattenForest children

/-- flattenTree's traversal over a children map. -/
def flattenForest : List (String × PrefixNode) → List ParsedKeybinding
  | [] => []
  | (_, n) :: rest => flattenNode n ++ flattenForest rest

end

/-- PrefixGraphBuilder.flattenTree: concatenate every node's bindings in
pre-order over the root map. -/
def flattenTree (roots : List (String × PrefixNode)) : List ParsedKeybinding :=
  flattenForest roots

/-- The record returned by PrefixGraphBuilder.getTreeStats. -/
structure TreeStats where
  totalNodes : Nat
  maxDepth : Nat
  multiChordCount : Nat
  singleChordCount : Nat
deriving Repr, DecidableEq

mutual

/-- getTreeStats traversal of one node at a given depth: count the node,
record its depth in the running maximum, and count its bindings as
single-chord at depth 0 and multi-chord below. -/
def nodeStats : PrefixNode → Nat → TreeStats
  | .mk _ children bindings _, depth =>
    let rest := forestStats children (depth + 1)
    { totalNodes := rest.totalNodes + 1
      maxDepth := max depth rest.maxDepth
      multiChordCount :=
        rest.multiChordCount + (if bindings.length > 0 ∧ depth ≠ 0 then bindings.length else 0)
      singleChordCount :=
        rest.singleChordCount + (if bindings.length > 0 ∧ depth = 0 then bindings.length else 0) }

/-- getTreeStats traversal over a children map at a given depth. -/
def forestStats : List (String × PrefixNode) → Nat → TreeStats
  | [], _ => { totalNodes := 0, maxDepth := 0, multiChordCount := 0, singleChordCount := 0 }
  | (_, n) :: rest, depth =>
    let a := nodeStats n depth
    let b := forestStats rest depth
    { totalNodes := a.totalNodes + b.totalNodes
      maxDepth := max a.maxDepth b.maxDepth
      multiChordCount := a.multiChordCount + b.multiChordCount
      singleChordCount := a.singleChordCount + b.singleChordCount }

end

/-- PrefixGraphBuilder.getTreeStats: single pre-order traversal from the
roots at depth 0. -/
def getTreeStats (roots : List (String × PrefixNode)) : TreeStats :=
  forestStats roots 0

mutual

/-- getNodesAtDepth traversal: a node at the target depth is collected and
its subtree is not descended further. -/
def nodesAtDepthNode : PrefixNode → Nat → Nat → List PrefixNode
  | n, target, current =>
    if current = target then [n]
    else
      match n with
      | .mk _ children _ _ => nodesAtDepthForest children target (current + 1)

/-- getNodesAtDepth traversal over a children map. -/
def nodesAtDepthForest : List (String × PrefixNode) → Nat → Nat → List PrefixNode
  | [], _, _ => []
  | (_, n) :: rest, target, current =>
    nodesAtDepthNode n target current ++ nodesAtDepthForest rest target current

end

/-- PrefixGraphBuilder.getNodesAtDepth: depth 0 returns the root node list,
otherwise a pre-order walk counting edges from each root. -/
def getNodesAtDepth (roots : List (String × PrefixNode)) (depth : Nat) : List PrefixNode :=
  if depth = 0 then roots.map Prod.snd
  else nodesAtDepthForest roots depth 0

/-! ## LiveChordTracker (src/searchIndex.ts) -/

/-- The mutable fields of LiveChordTracker that the core transitions touch.
The pending setTimeout handle is modelled as an optional timer id drawn from
a counter, so cancel-and-replace is observable in the state. -/
structure TrackerState where
  isActive : Bool
  currentChordSequence : List String
  resetTimer : Option Nat
  nextTimerId : Nat
deriving Repr, DecidableEq

/-- LiveChordTracker.getCurrentSequence: a copy of the current sequence. -/
def getCurrentSequence (s : TrackerState) : List String :=
  s.currentChordSequence

/-- LiveChordTracker.handleKeyPress: a falsy (empty) chord returns at once;
otherwise push the chord, notify subscribers with the updated sequence, and
cancel-and-replace the reset timer. The second component collects the
sequences fired on the change emitter during the call. -/
def handleKeyPress (s : TrackerState) (chord : String) :
    TrackerState × List (List String) :=
  if chord = "" then (s, [])
  else
    let seq := s.currentChordSequence ++ [chord]
    ({ s with
        currentChordSequence := seq
        resetTimer := some s.nextTimerId
        nextTimerId := s.nextTimerId + 1 },
     [seq])

/-- LiveChordTracker.resetSequence, the body of the reset timer callback:
when inactive do nothing, otherwise clear the stored sequence without firing
any notification. -/
def resetSequence (s : TrackerState) : TrackerState :=
  if s.isActive = false then s
  else { s with currentChordSequence := [] }

/-- Folding a list of key presses through handleKeyPress, keeping only the
state (notifications are per-call). -/
def pressAll (s : TrackerState) (chords : List String) : TrackerState :=
  chords.foldl (fun st ch => (handleKeyPress st ch).1) s

/-- The word-boundary test of the JS regex: a word character is a letter, a
digit or an underscore. -/
def isWordChar (c : Char) : Bool :=
  c.isAlpha || c.isDigit || c = '_'

/-- Model of chord.replace(word-bounded opt, "option") with a global flag:
scan left to right, replace every occurrence of the word opt that has a
non-word character (or an end of string) on both sides, and continue after
each replacement. The boolean carries whether the previous character was a
word character. -/
def replaceOptAux : Bool → List Char → List Char
  | _, [] => []
  | prevWord, 'o' :: 'p' :: 't' :: rest2 =>
    if !prevWord && (match rest2 with | [] => true | d :: _ => !isWordChar d) then
      'o' :: 'p' :: 't' :: 'i' :: 'o' :: 'n' :: replaceOptAux true rest2
    else
      -- a failed match is skipped whole: no later match can begin at its
      -- second or third character, since a match must begin with the letter o
      'o' :: 'p' :: 't' :: replaceOptAux true rest2
  | _, c :: rest => c :: replaceOptAux (isWordChar c) rest

/-- The opt-to-option normalization applied to each live chord before
filtering (the webview sends opt on macOS, the parser uses option). -/
def jsReplaceOptWord (s : String) : String :=
  String.mk (replaceOptAux false s.data)

/-- Whether the character list s starts with the character list pre. -/
def charsStartWith : List Char → List Char → Bool
  | _, [] => true
  | [], _ :: _ => false
  | a :: as, b :: bs => a == b && charsStartWith as bs

/-- JS String.prototype.startsWith. -/
def jsStartsWith (s pre : String) : Bool :=
  charsStartWith s.data pre.data

/-- The lowercased, opt-normalized join of the live sequence used as the
match string inside filterBindings. -/
def liveSequenceStr (s : TrackerState) : String :=
  jsToLower (joinSpace (s.currentChordSequence.map jsReplaceOptWord))

/-- LiveChordTracker.filterBindings: an empty sequence returns the input
unchanged; otherwise keep the bindings whose lowercased key equals the match
string or starts with it followed by a space. -/
def filterBindings (s : TrackerState) (bindings : List ParsedKeybinding) :
    List ParsedKeybinding :=
  if s.currentChordSequence.length = 0 then bindings
  else
    let currentSequenceStr := liveSequenceStr s
    bindings.filter (fun binding =>
      let bindingKey := jsToLower binding.key
      bindingKey == currentSequenceStr ||
        jsStartsWith bindingKey (currentSequenceStr ++ " "))

/-! ## Test fixtures -/

/-- Fixture: the saveAll binding of the two-binding scenario. -/
def saveAllBinding : ParsedKeybinding :=
  { key := "cmd+k cmd+s", command := "workbench.action.files.saveAll",
    whenClause := none, disabled := false, sourceEditor := "vscode",
    commandLabel := none, category := some "Workbench", isMultiChord := true,
    conflictsWith := some [] }

/-- Fixture: the x binding of the two-binding scenario. -/
def xBinding : ParsedKeybinding :=
  { key := "cmd+k", command := "x", whenClause := none, disabled := false,
    sourceEditor := "vscode", commandLabel := none, category := some "Other",
    isMultiChord := false, conflictsWith := some [] }

/-- Fixture: the scenario input list, in the order given. -/
def demoBindings : List ParsedKeybinding := [saveAllBinding, xBinding]

/-- Fixture: a binding whose key is the single chord opt. -/
def optBinding : ParsedKeybinding :=
  { key := "opt", command := "c", whenClause := none, disabled := false,
    sourceEditor := "vscode", commandLabel := none, category := none,
    isMultiChord := false, conflictsWith := none }

/-- Fixture: an active tracker whose live sequence is the single chord opt. -/
def optTracker : TrackerState :=
  { isActive := true, currentChordSequence := ["opt"], resetTimer := none,
    nextTimerId := 0 }

/-! ## Helper lemmas about the parser -/

/-- Closed form of the parseChord loop: the modifiers collect the known
modifier tokens among all parts but the last, and the key ends as the last
part, every non-final non-modifier part being overwritten. -/
theorem chordLoop_eq (parts : List String) (mods : List String) (key : String) :
    chordLoop parts (mods, key) =
      (mods ++ parts.dropLast.filter (fun p => modifierSet.contains p),
       parts.getLastD key) := by
  induction parts generalizing mods key with
  | nil => simp [chordLoop]
  | cons p rest ih =>
    cases rest with
    | nil => simp [chordLoop]
    | cons q rs =>
      have hstep : chordLoop (p :: q :: rs) (mods, key) =
          if modifierSet.contains p && !(q :: rs).isEmpty then
            chordLoop (q :: rs) (mods ++ [p], key)
          else
            chordLoop (q :: rs) (mods, p) := rfl
      rw [hstep]
      by_cases hp : p ∈ modifierSet
      · rw [if_pos (by simpa using hp), ih]
        simp [List.dropLast_cons₂, List.filter_cons, hp, List.getLastD_cons]
      · rw [if_neg (by simpa using hp), ih]
        refine Prod.ext ?_ ?_
        · show mods ++ _ = mods ++ _
          simp [List.dropLast_cons₂, List.filter_cons, hp]
        · show (q :: rs).getLastD p = (p :: q :: rs).getLastD key
          simp only [List.getLastD_cons]

/-- The head of a dropWhile result never satisfies the predicate. -/
theorem dropWhile_head_false (p : Char → Bool) :
    ∀ l : List Char, ∀ h : l.dropWhile p ≠ [], p ((l.dropWhile p).head h) = false := by
  intro l
  induction l with
  | nil => intro h; simp at h
  | cons c rest ih =>
    intro h
    by_cases hc : p c
    · simp only [List.dropWhile_cons, hc, if_true] at h ⊢
      exact ih h
    · simp only [List.dropWhile_cons, hc, if_false] at h ⊢
      simpa using hc

/-- The whitespace tokenizer never returns an empty list when the
accumulator is nonempty. -/
theorem wsTokensAux_ne_nil_of_acc :
    ∀ (l acc : List Char), acc ≠ [] → wsTokensAux l acc ≠ [] := by
  intro l
  induction l with
  | nil => intro acc h; simp [wsTokensAux, h]
  | cons c rest ih =>
    intro acc h
    by_cases hc : isJsSpace c
    · simp [wsTokensAux, hc, h]
    · exact fun hcon => ih (c :: acc) (by simp) (by simpa [wsTokensAux, hc] using hcon)

/-- The whitespace tokenizer never returns an empty list when the input has
a non-whitespace character. -/
theorem wsTokensAux_ne_nil :
    ∀ (l acc : List Char), (∃ c ∈ l, isJsSpace c = false) → wsTokensAux l acc ≠ [] := by
  intro l
  induction l with
  | nil => intro acc h; simp at h
  | cons c rest ih =>
    intro acc h
    by_cases hc : isJsSpace c
    · have hrest : ∃ d ∈ rest, isJsSpace d = false := by
        obtain ⟨d, hd, hds⟩ := h
        rcases List.mem_cons.mp hd with rfl | hdr
        · simp [hc] at hds
        · exact ⟨d, hdr, hds⟩
      by_cases ha : acc.isEmpty
      · intro hcon
        exact ih [] hrest (by simpa [wsTokensAux, hc, ha] using hcon)
      · simp [wsTokensAux, hc, ha]
    · exact fun hcon =>
        wsTokensAux_ne_nil_of_acc rest (c :: acc) (by simp)
          (by simpa [wsTokensAux, hc] using hcon)

/-- A nonempty trimmed string contains a non-whitespace character. -/
theorem jsTrim_has_nonspace (s : String) (h : jsTrim s ≠ "") :
    ∃ c ∈ (jsTrim s).data, isJsSpace c = false := by
  have hdata : (jsTrim s).data =
      ((s.data.dropWhile isJsSpace).reverse.dropWhile isJsSpace).reverse := rfl
  set l2 := (s.data.dropWhile isJsSpace).reverse.dropWhile isJsSpace with hl2
  have hne : l2 ≠ [] := by
    intro hnil
    apply h
    have : (jsTrim s).data = [] := by rw [hdata, hnil]; rfl
    exact String.ext (by simpa using this)
  refine ⟨l2.head hne, ?_, ?_⟩
  · rw [hdata]
    exact List.mem_reverse.mpr (List.head_mem hne)
  · exact dropWhile_head_false isJsSpace _ hne

/-- parseKeySequence never returns an empty chord list: an empty trimmed
string splits to a one-element list, and any other trimmed string has at
least one token. -/
theorem parseKeySequence_ne_nil (s : String) : parseKeySequence s ≠ [] := by
  unfold parseKeySequence jsSplitWs
  by_cases h : jsTrim s = ""
  · simp [h]
  · simp only [h, if_false, ne_eq, List.map_eq_nil_iff]
    exact wsTokensAux_ne_nil _ _ (jsTrim_has_nonspace s h)

/-! ## Claims about the parser -/

/-- C1: canonicalization is permutation-invariant over modifier order: the
normalized key of "shift+cmd+k" equals the normalized key of "cmd+shift+k",
both being the modifier-sorted string "cmd+shift+k", so the two spellings
index to the same tree node. -/
theorem canonicalKey_permutation_invariant :
    normalizeChordKey "shift+cmd+k" = normalizeChordKey "cmd+shift+k" ∧
    normalizeChordKey "cmd+shift+k" = "cmd+shift+k" := by decide

/-- C4 counterexample: in "cmd+x+shift+k" the first non-modifier token is x,
but parseChord returns k as the base key (the claim says the base key is the
first non-modifier token walking left to right). -/
theorem parseChord_first_nonmodifier_cex :
    (parseChord "cmd+x+shift+k").key ≠ "x" ∧
    (parseChord "cmd+x+shift+k").key = "k" ∧
    (parseChord "cmd+x+shift+k").modifiers = ["cmd", "shift"] := by decide

/-- C4 amended: a token is classified as a modifier iff it is in the known
modifier set and is not the last token; the base key is always the LAST
token of the chord (each later non-modifier token, and finally the last
token, overwrites the key), so non-final non-modifier tokens are dropped. -/
theorem parseChord_characterization (chord : String) :
    (parseChord chord).modifiers =
      (jsSplitOnPlus (jsToLower chord)).dropLast.filter
        (fun p => modifierSet.contains p) ∧
    (parseChord chord).key = (jsSplitOnPlus (jsToLower chord)).getLastD "" := by
  constructor
  · simp [parseChord, chordLoop_eq]
  · simp [parseChord, chordLoop_eq]

/-- C5 counterexample: the multi-token chord "cmd+shift" ends with the
recognized modifier shift as its base key, refuting the invariant that the
base key is never a recognized modifier unless the chord is that single
token alone. -/
theorem parseChord_modifier_baseKey_cex :
    (parseChord "cmd+shift").key = "shift" ∧
    modifierSet.contains "shift" = true ∧
    (jsSplitOnPlus (jsToLower "cmd+shift")).length = 2 := by decide

/-- C5 amended: the base key is a recognized modifier exactly when the LAST
token of the chord is a modifier name (e.g. "cmd+shift" gets base key
shift); a single-token chord textually equal to a modifier name does become
the base key with an empty modifier list. -/
theorem parseChord_modifier_baseKey_amended (chord : String) :
    (modifierSet.contains (parseChord chord).key =
      modifierSet.contains ((jsSplitOnPlus (jsToLower chord)).getLastD "")) ∧
    (∀ t, jsSplitOnPlus (jsToLower chord) = [t] →
      parseChord chord = { modifiers := [], key := t, raw := chord }) := by
  constructor
  · have : (parseChord chord).key = (jsSplitOnPlus (jsToLower chord)).getLastD "" := by
      simp [parseChord, chordLoop_eq]
    rw [this]
  · intro t ht
    simp [parseChord, ht, chordLoop_eq]

/-- C5 witness: the single-token chord "cmd" becomes the base key with no
modifiers. -/
theorem parseChord_modifier_baseKey_amended_witness :
    parseChord "cmd" = { modifiers := [], key := "cmd", raw := "cmd" } :=
  (parseChord_modifier_baseKey_amended "cmd").2 "cmd" (by decide)

/-- C6 counterexample: parseChord "CMD+K" and parseChord "cmd+k" are not
identical records, because the raw field preserves the original spelling. -/
theorem parseChord_case_fields_cex :
    parseChord "CMD+K" ≠ parseChord "cmd+k" := by decide

/-- C6 amended: parseChord "CMD+K" and parseChord "cmd+k" agree on the
modifiers and the base key (parsing lowercases first), but their raw fields
differ, each keeping its original input string. -/
theorem parseChord_case_insensitive_amended :
    (parseChord "CMD+K").modifiers = (parseChord "cmd+k").modifiers ∧
    (parseChord "CMD+K").key = (parseChord "cmd+k").key ∧
    (parseChord "CMD+K").raw ≠ (parseChord "cmd+k").raw := by decide

/-- C7 counterexample: parseKeySequence "" returns a one-element sequence
(the ECMAScript split of an empty string on a whitespace regex is [""]),
not a zero-length sequence as claimed. -/
theorem parseKeySequence_empty_cex :
    (parseKeySequence "").length = 1 ∧
    parseKeySequence "" = [{ modifiers := [], key := "", raw := "" }] := by decide

/-- C7 amended: for every input whose trimmed form is empty, parseKeySequence
returns the one-element sequence holding the empty chord with empty
modifiers, empty base key and empty raw string. -/
theorem parseKeySequence_empty_amended (s : String) (h : jsTrim s = "") :
    parseKeySequence s = [{ modifiers := [], key := "", raw := "" }] := by
  unfold parseKeySequence
  rw [h]
  decide

/-- C7 witness: a whitespace-only input trims to empty and yields the
one-element empty-chord sequence. -/
theorem parseKeySequence_empty_amended_witness :
    parseKeySequence "   " = [{ modifiers := [], key := "", raw := "" }] :=
  parseKeySequence_empty_amended "   " (by decide)

/-! ## Helper lemmas about the prefix tree -/

/-- Flattening distributes over forest concatenation. -/
theorem flattenForest_append (m1 m2 : List (String × PrefixNode)) :
    flattenForest (m1 ++ m2) = flattenForest m1 ++ flattenForest m2 := by
  induction m1 with
  | nil => simp [flattenForest]
  | cons kv rest ih =>
    obtain ⟨k0, v0⟩ := kv
    simp [flattenForest, ih]

/-- Setting an absent key appends the entry at the end of the map. -/
theorem mapGet_none_mapSet (m : List (String × PrefixNode)) (k : String)
    (v : PrefixNode) (h : mapGet m k = none) : mapSet m k v = m ++ [(k, v)] := by
  induction m with
  | nil => simp [mapSet]
  | cons kv rest ih =>
    obtain ⟨k0, v0⟩ := kv
    by_cases hk : k0 = k
    · simp [mapGet, hk] at h
    · simp only [mapGet, hk, if_neg, ite_false] at h
      simp [mapSet, hk, ih h]

/-- Replacing the value of a present key changes the flattened bindings by
exactly the change of that value's flattened bindings. -/
theorem mapSet_some_flatten (x : ParsedKeybinding) :
    ∀ (m : List (String × PrefixNode)) (k : String) (v0 v : PrefixNode),
      mapGet m k = some v0 →
      List.Perm (flattenNode v) (x :: flattenNode v0) →
      List.Perm (flattenForest (mapSet m k v)) (x :: flattenForest m) := by
  intro m
  induction m with
  | nil => intro k v0 v h _; simp [mapGet] at h
  | cons kv rest ih =>
    obtain ⟨k0, w⟩ := kv
    intro k v0 v h hperm
    by_cases hk : k0 = k
    · simp only [mapGet, hk, if_pos, ite_true, Option.some.injEq] at h
      subst h
      simp only [mapSet, hk, ite_true, flattenForest]
      exact hperm.append_right _
    · simp only [mapGet, hk, if_neg, ite_false] at h
      simp only [mapSet, hk, ite_false, flattenForest]
      exact ((ih k v0 v h hperm).append_left (flattenNode w)).trans List.perm_middle

/-- Inserting one binding along a chord path adds exactly that binding to
the flattened bindings of the node. -/
theorem insertChords_flatten (b : ParsedKeybinding) :
    ∀ (rest : List String) (node : PrefixNode) (path : List String),
      List.Perm (flattenNode (insertChords node path rest b)) (b :: flattenNode node) := by
  intro rest
  induction rest with
  | nil =>
    intro node path
    obtain ⟨c, ch, bl, p⟩ := node
    simp only [insertChords, flattenNode, List.append_assoc]
    exact List.perm_middle
  | cons raw rest' ih =>
    intro node path
    obtain ⟨c, ch, bl, p⟩ := node
    simp only [insertChords]
    cases h : mapGet ch (normalizeChordKey raw) with
    | some cnode =>
      simp only [h, flattenNode]
      exact ((mapSet_some_flatten b ch _ cnode _ h
        (ih cnode (path ++ [raw]))).append_left bl).trans List.perm_middle
    | none =>
      simp only [h, flattenNode]
      rw [mapGet_none_mapSet ch _ _ h, flattenForest_append]
      have hins := ih (createNode raw (path ++ [raw])) (path ++ [raw])
      have hcreate : flattenNode (createNode raw (path ++ [raw])) = [] := rfl
      rw [hcreate] at hins
      have hone : List.Perm
          (flattenForest [(normalizeChordKey raw,
            insertChords (createNode raw (path ++ [raw])) (path ++ [raw]) rest' b)]) [b] := by
        simpa [flattenForest] using hins
      have hmid : List.Perm ((bl ++ flattenForest ch) ++ [b]) (b :: (bl ++ flattenForest ch)) := by
        simpa using (@List.perm_middle ParsedKeybinding b (bl ++ flattenForest ch) [])
      have hassoc : List.Perm
          (bl ++ (flattenForest ch ++ [b])) ((bl ++ flattenForest ch) ++ [b]) := by
        rw [List.append_assoc]
      exact (((hone.append_left (flattenForest ch)).append_left bl).trans hassoc).trans hmid

/-- One buildPrefixTree iteration adds exactly the processed binding to the
flattened forest, unless its key string is empty. -/
theorem buildStep_flatten (roots : List (String × PrefixNode)) (b : ParsedKeybinding) :
    List.Perm (flattenForest (buildStep roots b))
      (if b.key = "" then flattenForest roots else b :: flattenForest roots) := by
  by_cases hk : b.key = ""
  · simp [buildStep, hk]
  · obtain ⟨c0, rest, hcs⟩ : ∃ c0 rest, parseKeySequence b.key = c0 :: rest := by
      cases h : parseKeySequence b.key with
      | nil => exact absurd h (parseKeySequence_ne_nil _)
      | cons a l => exact ⟨a, l, rfl⟩
    rw [if_neg hk]
    simp only [buildStep, hk, ite_false, hcs]
    cases h : mapGet roots (normalizeChordKey c0.raw) with
    | some n =>
      simp only [h]
      exact mapSet_some_flatten b roots _ n _ h
        (insertChords_flatten b (rest.map KeyChord.raw) n [c0.raw])
    | none =>
      simp only [h]
      rw [mapGet_none_mapSet roots _ _ h, flattenForest_append]
      have hins := insertChords_flatten b (rest.map KeyChord.raw)
        (createNode c0.raw [c0.raw]) [c0.raw]
      have hcreate : flattenNode (createNode c0.raw [c0.raw]) = [] := rfl
      rw [hcreate] at hins
      have hone : List.Perm
          (flattenForest [(normalizeChordKey c0.raw,
            insertChords (createNode c0.raw [c0.raw]) [c0.raw] (rest.map KeyChord.raw) b)])
          [b] := by
        simpa [flattenForest] using hins
      have hmid : List.Perm (flattenForest roots ++ [b]) (b :: flattenForest roots) := by
        simp [List.perm_append_comm]
      exact (hone.append_left (flattenForest roots)).trans hmid

/-- Folding buildPrefixTree over a binding list appends, as a multiset,
exactly the bindings with a nonempty key string. -/
theorem buildFold_flatten (B : List ParsedKeybinding) :
    ∀ roots, List.Perm (flattenForest (B.foldl buildStep roots))
      (flattenForest roots ++ B.filter (fun b => !(b.key == ""))) := by
  induction B with
  | nil => intro roots; simp
  | cons b B' ih =>
    intro roots
    simp only [List.foldl_cons]
    have h1 := ih (buildStep roots b)
    have h2 := buildStep_flatten roots b
    by_cases hk : b.key = ""
    · rw [if_pos hk] at h2
      refine h1.trans ?_
      rw [List.filter_cons_of_neg (by simp [hk])]
      exact h2.append_right _
    · rw [if_neg hk] at h2
      refine h1.trans ?_
      rw [List.filter_cons_of_pos (by simp [hk])]
      exact (h2.append_right (B'.filter (fun b => !(b.key == "")))).trans List.perm_middle.symm

/-! ## Claims about the prefix tree -/

/-- C2: flattening the prefix tree built from a binding list B is a
multiset-equal reordering of exactly the elements of B whose key string is
nonempty: each appears exactly once, and bindings with an empty key string
are excluded. -/
theorem flattenTree_buildPrefixTree_perm (B : List ParsedKeybinding) :
    List.Perm (flattenTree (buildPrefixTree B)) (B.filter (fun b => !(b.key == ""))) := by
  have h := buildFold_flatten B []
  simpa [flattenTree, buildPrefixTree, flattenForest] using h

/-- C9: on the two-binding scenario list, the prefix tree has exactly 2
nodes, maximum depth 1, one single-chord binding (the x binding attached at
the root) and one multi-chord binding (the saveAll binding attached one
level deep): a shorter binding and a longer binding sharing a prefix
coexist without collision. -/
theorem prefixTree_demo_scenario :
    getTreeStats (buildPrefixTree demoBindings) =
      { totalNodes := 2, maxDepth := 1, multiChordCount := 1, singleChordCount := 1 } ∧
    (getNodesAtDepth (buildPrefixTree demoBindings) 0).map PrefixNode.bindings =
      [[xBinding]] ∧
    (getNodesAtDepth (buildPrefixTree demoBindings) 1).map PrefixNode.bindings =
      [[saveAllBinding]] := by decide

/-! ## Helper lemmas about the live tracker -/

/-- Folding nonempty key presses appends them in order and keeps the active
flag untouched. -/
theorem pressAll_spec (cs : List String) :
    ∀ s : TrackerState, (∀ x ∈ cs, x ≠ "") →
      (pressAll s cs).currentChordSequence = s.currentChordSequence ++ cs ∧
      (pressAll s cs).isActive = s.isActive := by
  induction cs with
  | nil => intro s _; simp [pressAll]
  | cons c rest ih =>
    intro s h
    have hc : c ≠ "" := h c (by simp)
    have hstep : pressAll s (c :: rest) = pressAll ((handleKeyPress s c).1) rest := rfl
    have hstate : (handleKeyPress s c).1 =
        { s with
            currentChordSequence := s.currentChordSequence ++ [c]
            resetTimer := some s.nextTimerId
            nextTimerId := s.nextTimerId + 1 } := by
      simp [handleKeyPress, hc]
    rw [hstep, hstate]
    obtain ⟨h1, h2⟩ := ih _ (fun x hx => h x (by simp [hx]))
    refine ⟨?_, by simpa using h2⟩
    simpa [List.append_assoc] using h1

/-! ## Claims about the live tracker -/

/-- C3: starting active with an empty sequence, N key events with nonempty
chords and no reset or timeout leave getCurrentSequence equal to the chords
in call order (length N); after the reset-timer callback fires with no
further events, the next single key event yields a sequence of length 1,
not N plus 1. -/
theorem liveTracker_accumulate_and_timeout (s0 : TrackerState) (cs : List String)
    (c : String) (hact : s0.isActive = true) (hempty : s0.currentChordSequence = [])
    (hcs : ∀ x ∈ cs, x ≠ "") (hc : c ≠ "") :
    getCurrentSequence (pressAll s0 cs) = cs ∧
    getCurrentSequence ((handleKeyPress (resetSequence (pressAll s0 cs)) c).1) = [c] := by
  obtain ⟨h1, h2⟩ := pressAll_spec cs s0 hcs
  have hseq : getCurrentSequence (pressAll s0 cs) = cs := by
    rw [getCurrentSequence, h1, hempty]; rfl
  refine ⟨hseq, ?_⟩
  have hactN : (pressAll s0 cs).isActive = true := by rw [h2, hact]
  have hreset : resetSequence (pressAll s0 cs) =
      { pressAll s0 cs with currentChordSequence := [] } := by
    simp [resetSequence, hactN]
  rw [hreset]
  simp [handleKeyPress, hc, getCurrentSequence]

/-- C3 witness: two presses accumulate ["cmd+k", "cmd+s"]; after the timer
callback, one press of x yields ["x"]. -/
theorem liveTracker_accumulate_and_timeout_witness :
    getCurrentSequence (pressAll ⟨true, [], none, 0⟩ ["cmd+k", "cmd+s"]) =
      ["cmd+k", "cmd+s"] ∧
    getCurrentSequence
      ((handleKeyPress (resetSequence (pressAll ⟨true, [], none, 0⟩ ["cmd+k", "cmd+s"])) "x").1) =
      ["x"] :=
  liveTracker_accumulate_and_timeout ⟨true, [], none, 0⟩ ["cmd+k", "cmd+s"] "x"
    rfl rfl (by decide) (by decide)

/-- C10: a key event carrying an empty chord string is a complete no-op on
any tracker state: the returned state is the input state unchanged (same
sequence, same pending timer, same timer counter) and no notification is
emitted. -/
theorem handleKeyPress_empty_noop (s : TrackerState) :
    handleKeyPress s "" = (s, []) := rfl

/-- C8 counterexample: with live sequence ["opt"] and a binding whose key is
"opt", the claim's match string S (the case-insensitive join of the current
sequence) equals the binding key, yet filterBindings drops the binding: the
code first rewrites the word opt to option before joining. -/
theorem filterBindings_opt_cex :
    filterBindings optTracker [optBinding] = [] ∧
    jsToLower optBinding.key = jsToLower (joinSpace optTracker.currentChordSequence) := by
  decide

/-- C8 amended: filterBindings returns a sublist of the input (input order);
an empty current sequence returns the input unchanged; for a nonempty
sequence, with S the case-insensitive join of the sequence after replacing
each word opt by option, a binding is kept iff its lowercased key equals S
or starts with S followed by a space. -/
theorem filterBindings_amended (st : TrackerState) (bs : List ParsedKeybinding) :
    List.Sublist (filterBindings st bs) bs ∧
    (st.currentChordSequence = [] → filterBindings st bs = bs) ∧
    (st.currentChordSequence ≠ [] → ∀ b, b ∈ filterBindings st bs ↔
      b ∈ bs ∧ (jsToLower b.key = liveSequenceStr st ∨
        jsStartsWith (jsToLower b.key) (liveSequenceStr st ++ " ") = true)) := by
  refine ⟨?_, ?_, ?_⟩
  · rw [filterBindings]
    split
    · exact List.Sublist.refl bs
    · exact List.filter_sublist bs
  · intro h
    simp [filterBindings, h]
  · intro h b
    have hlen : ¬st.currentChordSequence.length = 0 := by
      simpa [List.length_eq_zero] using h
    simp [filterBindings, hlen, List.mem_filter]

/-- C8 witness: an empty live sequence returns the input list unchanged, and
with live sequence ["cmd+k"] the saveAll binding is kept because its key
starts with the match string followed by a space. -/
theorem filterBindings_amended_witness :
    filterBindings ⟨true, [], none, 0⟩ [optBinding] = [optBinding] ∧
    (saveAllBinding ∈ filterBindings ⟨true, ["cmd+k"], none, 0⟩ [saveAllBinding] ↔
      saveAllBinding ∈ [saveAllBinding] ∧
      (jsToLower saveAllBinding.key = liveSequenceStr ⟨true, ["cmd+k"], none, 0⟩ ∨
        jsStartsWith (jsToLower saveAllBinding.key)
          (liveSequenceStr ⟨true, ["cmd+k"], none, 0⟩ ++ " ") = true)) :=
  ⟨(filterBindings_amended ⟨true, [], none, 0⟩ [optBinding]).2.1 rfl,
   (filterBindings_amended ⟨true, ["cmd+k"], none, 0⟩ [saveAllBinding]).2.2
     (by decide) saveAllBinding⟩

end ChordMap
